import Mathlib

/-
  Verification development for the `agent-demo` repository
  (a Koa HTTP service in `server/index.ts` exposing an LLM agent with
  base tools, MCP-discovered tools and skill-derived tools).

  The TypeScript source is shallowly embedded below: pure fragments become
  Lean functions; the filesystem becomes an explicit association list of
  paths to nodes; the external model-generation call becomes an oracle
  parameter; JS strings become `String` or `List Char`.  All definitions
  come first, followed by the lemmas and theorems about them.
-/

set_option maxHeartbeats 1000000

namespace AgentDemo

/-! ## Substring occurrence on character lists

`occursIn pat s` decides whether `pat` occurs as a contiguous substring of
`s`.  This models a JS regular-expression test whose pattern is an
alternation of string literals (no metacharacters), and feeds the scanners
below. -/

def occursIn (pat : List Char) : List Char → Bool
  | [] => pat.isEmpty
  | c :: rest => pat.isPrefixOf (c :: rest) || occursIn pat rest

/-- Substring occurrence test on `String`, via the underlying char lists. -/
def strOccurs (pat s : String) : Bool :=
  occursIn pat.data s.data

/-- JS `String.startsWith`, via the underlying char lists. -/
def strStartsWith (s pre : String) : Bool :=
  pre.data.isPrefixOf s.data

/-- JS `toLowerCase` on the character sets appearing here: ASCII letters
are lowered, everything else — including the CJK keywords — is
unchanged. -/
def jsToLower (s : String) : String :=
  String.mk (s.data.map Char.toLower)

/-! ## JS objects as association lists (string-keyed registries)

A JS object literal built by spread syntax (`\x7b...a, ...b\x7d`) keeps the
first-occurrence position of every key and lets later spreads override
earlier values.  `setKey` models a single property write, `spreadMerge a b`
models `\x7b...a, ...b\x7d`. -/

abbrev Registry (α : Type) := List (String × α)

/-- First value bound to key `k`, if any (JS property lookup). -/
def alookup {α : Type} (m : Registry α) (k : String) : Option α :=
  match m with
  | [] => none
  | e :: rest => if e.1 = k then some e.2 else alookup rest k

/-- JS property assignment on an object represented as an entry list:
replace the first entry carrying the key in place, or append a new entry. -/
def setKey {α : Type} : Registry α → String → α → Registry α
  | [], k, v => [(k, v)]
  | e :: rest, k, v => if e.1 = k then (k, v) :: rest else e :: setKey rest k v

/-- JS object spread `\x7b...a, ...b\x7d`: fold the entries of `b` over `a`,
later entries overriding earlier ones with the same key. -/
def spreadMerge {α : Type} (a b : Registry α) : Registry α :=
  b.foldl (fun acc e => setKey acc e.1 e.2) a

/-- Keys of a registry, in order. -/
def keysOf {α : Type} (m : Registry α) : List String :=
  m.map Prod.fst

/-- Key uniqueness invariant of a registry. -/
def nodupKeys {α : Type} (m : Registry α) : Prop :=
  (keysOf m).Nodup

instance {α : Type} (m : Registry α) : Decidable (nodupKeys m) := by
  unfold nodupKeys; infer_instance

/-! ## Tool registry (server/index.ts, `baseTools` / `getTools`)

A tool definition is identified here by its provenance; the execution
closures themselves are modelled further below (file tools) or are
external RPC calls (MCP) and scripts (skills). -/

inductive ToolImpl : Type
  | calculate
  | getCurrentTime
  | readFile
  | writeFile
  | deleteFile
  | mcp (server toolName : String)
  | skill (dirName : String)
deriving DecidableEq

/-- The five always-available base tools, in declaration order
(`const baseTools = \x7b calculate, getCurrentTime, readFile, writeFile,
deleteFile \x7d`). -/
def baseTools : Registry ToolImpl :=
  [("calculate", ToolImpl.calculate),
   ("getCurrentTime", ToolImpl.getCurrentTime),
   ("readFile", ToolImpl.readFile),
   ("writeFile", ToolImpl.writeFile),
   ("deleteFile", ToolImpl.deleteFile)]

/-- `getTools()` returns `\x7b ...baseTools, ...mcpTools, ...skillTools \x7d`. -/
def getTools (mcpTools skillTools : Registry ToolImpl) : Registry ToolImpl :=
  spreadMerge (spreadMerge baseTools mcpTools) skillTools

/-! ## Provider environment overlay merge (`initializeMCPTools`, stdio branch)

`let env = \x7b ...stdioConfig.env \x7d; if (stdioConfig.envFile)
\x7b env = \x7b ...envFileVars, ...env \x7d \x7d` — the inline `env` map is
spread after the variables loaded from the env file. -/

def mergeProviderEnv (inlineEnv envFileVars : Registry String) : Registry String :=
  spreadMerge envFileVars inlineEnv

/-! ## Configuration value interpolation (`interpolateConfig`)

The source chains six global regex replacements over the string:
`$\x7benv:NAME\x7d` (value of the environment variable, or empty when
unset), then the literal tokens `$\x7buserHome\x7d`,
`$\x7bworkspaceFolder\x7d`, `$\x7bworkspaceFolderBasename\x7d`,
`$\x7bpathSeparator\x7d` and `$\x7b/\x7d`.  Strings are embedded as
`List Char`; each scanner carries fuel `length + 1`, which a step that
always consumes at least one character can never exhaust. -/

/-- Replace every non-overlapping occurrence of `pat` by `repl`, scanning
left to right (JS `String.replace` with a global literal pattern). -/
def replaceAllF (pat repl : List Char) : Nat → List Char → List Char
  | 0, s => s
  | _ + 1, [] => []
  | fuel + 1, c :: rest =>
      if pat.isPrefixOf (c :: rest) && !pat.isEmpty then
        repl ++ replaceAllF pat repl fuel ((c :: rest).drop pat.length)
      else
        c :: replaceAllF pat repl fuel rest

def replaceAll (pat repl s : List Char) : List Char :=
  replaceAllF pat repl (s.length + 1) s

/-- The opening delimiter of an environment-variable token. -/
def envOpen : List Char := "$\x7benv:".data

/-- Replace every match of the regex `\$\\\x7benv:([^\x7d]+)\\\x7d`
(global) by the value of the named environment variable, or the empty
string when the variable is unset (`process.env[name] || ''`). -/
def envReplaceF (env : List Char → Option (List Char)) :
    Nat → List Char → List Char
  | 0, s => s
  | _ + 1, [] => []
  | fuel + 1, c :: rest =>
      if envOpen.isPrefixOf (c :: rest) then
        match ((c :: rest).drop envOpen.length).takeWhile (fun ch => ch ≠ '\x7d'),
              ((c :: rest).drop envOpen.length).dropWhile (fun ch => ch ≠ '\x7d') with
        | n0 :: ns, _ :: rest2 =>
            ((env (n0 :: ns)).getD []) ++ envReplaceF env fuel rest2
        | _, _ => c :: envReplaceF env fuel rest
      else
        c :: envReplaceF env fuel rest

def envReplace (env : List Char → Option (List Char)) (s : List Char) : List Char :=
  envReplaceF env (s.length + 1) s

/-- POSIX `path.basename`: the last path segment, ignoring trailing
separators. -/
def basenameChars (p : List Char) : List Char :=
  (((p.reverse.dropWhile (fun c => c = '/')).takeWhile (fun c => c ≠ '/')).reverse)

/-- Ambient interpolation context: `process.env`, `os.homedir()` and
`path.sep`. -/
structure InterpEnv : Type where
  env : List Char → Option (List Char)
  home : List Char
  sep : List Char

/-- The literal token `$\x7buserHome\x7d`. -/
def tokUserHome : List Char := "$\x7buserHome\x7d".data

/-- The literal token `$\x7bworkspaceFolder\x7d`. -/
def tokWorkspaceFolder : List Char := "$\x7bworkspaceFolder\x7d".data

/-- The literal token `$\x7bworkspaceFolderBasename\x7d`. -/
def tokWorkspaceFolderBasename : List Char :=
  "$\x7bworkspaceFolderBasename\x7d".data

/-- The literal token `$\x7bpathSeparator\x7d`. -/
def tokPathSeparator : List Char := "$\x7bpathSeparator\x7d".data

/-- The literal token `$\x7b/\x7d`. -/
def tokSlash : List Char := "$\x7b/\x7d".data

/-- `interpolateConfig(value, workspaceFolder)`: the six chained
replacements, in source order. -/
def interpolateConfig (E : InterpEnv) (workspaceFolder value : List Char) :
    List Char :=
  replaceAll tokSlash E.sep
    (replaceAll tokPathSeparator E.sep
      (replaceAll tokWorkspaceFolderBasename (basenameChars workspaceFolder)
        (replaceAll tokWorkspaceFolder workspaceFolder
          (replaceAll tokUserHome E.home
            (envReplace E.env value)))))

/-- The trigger substrings of the six recognized substitution tokens.  A
string in which none of them occurs is left untouched by every stage of
`interpolateConfig`. -/
def tokenTriggers : List (List Char) :=
  [envOpen, tokUserHome, tokWorkspaceFolder,
   tokWorkspaceFolderBasename, tokPathSeparator, tokSlash]

def noToken (s : List Char) : Bool :=
  tokenTriggers.all (fun p => !occursIn p s)

/-- A concrete interpolation context for the combination example:
`FOO=foo` set, `NOPE` unset, home `/home/u`, separator `/`. -/
def exEnv : InterpEnv :=
  ⟨fun n => if n = "FOO".data then some "foo".data else none,
   "/home/u".data, "/".data⟩

/-! ## Skill code-block extraction (`loadSkills`)

`loadSkills` scans each `SKILL.md` with the global regex
<three backticks>`(\w+)?\n([\s\S]*?)`<three backticks>, lowercases the
optional language tag, trims the body, and keeps the block only when the
trimmed body is non-empty; `index` is incremented only when a block is
kept.  A block is executable when its language is in a fixed allow-list or
the tag is empty. -/

/-- JS `\w`: ASCII letters, digits, underscore. -/
def isWordChar (c : Char) : Bool :=
  (('a' ≤ c && c ≤ 'z') || ('A' ≤ c && c ≤ 'Z') || ('0' ≤ c && c ≤ '9')
    || c = '_')

/-- Whitespace stripped by JS `String.trim`. -/
def isSpaceChar (c : Char) : Bool :=
  c = ' ' || c = '\t' || c = '\n' || c = '\x0d' || c = '\x0b' || c = '\x0c'

/-- JS `String.trim`: drop whitespace from both ends. -/
def trimChars (s : List Char) : List Char :=
  ((s.dropWhile isSpaceChar).reverse.dropWhile isSpaceChar).reverse

/-- The fence delimiter: three backticks. -/
def backtick3 : List Char := "```".data

/-- Split `s` at the first occurrence of `pat`: the part before the match
and the part after it (the lazy body match `[\s\S]*?` followed by the
closing fence). -/
def splitFirst (pat : List Char) : List Char → Option (List Char × List Char)
  | [] => none
  | c :: rest =>
      if pat.isPrefixOf (c :: rest) then some ([], (c :: rest).drop pat.length)
      else
        match splitFirst pat rest with
        | some (pre, post) => some (c :: pre, post)
        | none => none

/-- Attempt the fenced-block regex at the head of `s`: an opening fence,
an optional run of word characters (the language tag) that must be
followed immediately by a newline, the lazily-matched body, and a closing
fence.  Returns the tag, the raw body and the remainder of the input. -/
def tryFence (s : List Char) : Option (List Char × List Char × List Char) :=
  if backtick3.isPrefixOf s then
    match (s.drop 3).dropWhile isWordChar with
    | '\n' :: body =>
        match splitFirst backtick3 body with
        | some (code, rest2) => some ((s.drop 3).takeWhile isWordChar, code, rest2)
        | none => none
    | _ => none
  else none

structure CodeBlock : Type where
  language : String
  code : String
  index : Nat
deriving DecidableEq

/-- The `while ((match = codeBlockRegex.exec(content)) !== null)` loop:
try the fence regex at every position, left to right; on a match continue
after it, otherwise advance one character.  Fuel is the input length plus
one, which the loop cannot exhaust. -/
def extractLoopF : Nat → List Char → Nat → List CodeBlock
  | 0, _, _ => []
  | _ + 1, [], _ => []
  | fuel + 1, c :: rest, idx =>
      match tryFence (c :: rest) with
      | some (lang, code, rest2) =>
          if (trimChars code).isEmpty then extractLoopF fuel rest2 idx
          else
            ⟨String.mk (lang.map Char.toLower), String.mk (trimChars code), idx⟩
              :: extractLoopF fuel rest2 (idx + 1)
      | none => extractLoopF fuel rest idx

/-- All code blocks extracted from a skill descriptor body. -/
def extractCodeBlocks (content : String) : List CodeBlock :=
  extractLoopF (content.data.length + 1) content.data 0

/-- `const executableLanguages = [...]` in `loadSkills`. -/
def executableLanguages : List String :=
  ["bash", "sh", "shell", "python", "python3", "node", "javascript", "js",
   "typescript", "ts"]

/-- A code block counts as executable when its language tag is in the
allow-list or is empty (`block.language === ''`). -/
def isExecutableBlock (b : CodeBlock) : Bool :=
  executableLanguages.contains b.language || b.language == ""

/-- `codeBlocks.some(block => executableLanguages.includes(block.language)
|| block.language === '')`. -/
def hasExecutableScripts (blocks : List CodeBlock) : Bool :=
  blocks.any isExecutableBlock

/-! ## Filesystem and POSIX paths (file tools)

The filesystem is an association list from path strings to nodes.  Paths
handled by the tools are either absolute (starting with `/`) or joined
onto the absolute `PROJECT_ROOT`, so `path.resolve` only needs to
normalize an already absolute path. -/

inductive FSNode : Type
  | file (content : String)
  | dir
deriving DecidableEq

abbrev FS := List (String × FSNode)

def FS.lookup (fs : FS) (p : String) : Option FSNode :=
  match fs with
  | [] => none
  | e :: rest => if e.1 = p then some e.2 else FS.lookup rest p

/-- `fs.existsSync(p)`. -/
def FS.pathExists (fs : FS) (p : String) : Bool :=
  (FS.lookup fs p).isSome

/-- Create or overwrite the node at `p`. -/
def FS.set (fs : FS) (p : String) (n : FSNode) : FS :=
  match fs with
  | [] => [(p, n)]
  | e :: rest => if e.1 = p then (p, n) :: rest else e :: FS.set rest p n

/-- `fs.unlinkSync(p)`. -/
def FS.remove (fs : FS) (p : String) : FS :=
  fs.filter (fun e => e.1 ≠ p)

/-- POSIX `path.isAbsolute`. -/
def isAbsolutePath (p : String) : Bool :=
  strStartsWith p "/"

/-- Split a character list on `/`, keeping empty segments (the behavior
of a split on the separator). -/
def splitOnSlash : List Char → List (List Char)
  | [] => [[]]
  | '/' :: rest => [] :: splitOnSlash rest
  | c :: rest =>
      match splitOnSlash rest with
      | seg :: segs => (c :: seg) :: segs
      | [] => [[c]]

/-- Rebuild an absolute path from its non-empty segments. -/
def joinSegs : List (List Char) → String
  | [] => "/"
  | seg :: segs =>
      (seg :: segs).foldl (fun acc s => acc ++ "/" ++ String.mk s) ""

/-- Normalize an absolute POSIX path: split on `/`, drop empty and `.`
segments, let `..` pop the previous segment.  This is `path.resolve`
restricted to absolute inputs (the only inputs it receives here). -/
def normalizeAbs (p : String) : String :=
  joinSegs
    ((splitOnSlash p.data).foldl
      (fun acc seg =>
        if seg = [] ∨ seg = ['.'] then acc
        else if seg = ['.', '.'] then acc.dropLast
        else acc ++ [seg])
      [])

/-- `path.resolve(p)` for the absolute paths produced by the tools. -/
def resolvePath (p : String) : String :=
  normalizeAbs p

/-- `path.join(root, rel)` for an absolute `root`: concatenate and
normalize. -/
def joinPath (root rel : String) : String :=
  normalizeAbs (root ++ "/" ++ rel)

/-- `path.dirname` for paths without trailing separators: everything up to
the last `/`, with the POSIX special cases. -/
def dirname (p : String) : String :=
  match ((p.data.reverse.dropWhile (fun c => c ≠ '/')).reverse).dropLast with
  | [] => if strStartsWith p "/" then "/" else "."
  | pre => String.mk pre

/-- Containment of a resolved path in a resolved root directory: the path
is the root itself or lives strictly below it. -/
def insideRoot (resolvedRoot resolvedPath : String) : Bool :=
  resolvedPath = resolvedRoot || strStartsWith resolvedPath (resolvedRoot ++ "/")

/-- All ancestor directories of `p` (outermost first), created by
`fs.mkdirSync(p, \x7b recursive: true \x7d)`. -/
def ancestorsOf (p : String) : List String :=
  ((splitOnSlash p.data).filter (fun s => s ≠ [])).foldl
    (fun acc seg =>
      acc ++ [(acc.getLast? |>.getD "") ++ "/" ++ String.mk seg])
    []

/-- `fs.mkdirSync(dir, \x7b recursive: true \x7d)`: create every missing
ancestor as a directory; fail (`none`, the thrown error) when an ancestor
already exists as a regular file. -/
def mkdirRecursive (fs : FS) (p : String) : Option FS :=
  (ancestorsOf p).foldlM
    (fun acc d =>
      match FS.lookup acc d with
      | some (FSNode.file _) => none
      | some FSNode.dir => some acc
      | none => some (FS.set acc d FSNode.dir))
    fs

inductive ReadResult : Type
  | content (c : String)
  | err (e : String)
deriving DecidableEq

inductive WriteResult : Type
  | success (message : String)
  | err (e : String)
deriving DecidableEq

inductive DeleteResult : Type
  | success (message : String)
  | err (e : String)
deriving DecidableEq

/-- `readFileTool.execute(\x7b filename \x7d)`: resolve against the project
root when relative, report a missing file, and otherwise read it
(`readFileSync` throws on a directory; the catch returns the message). -/
def readFileExec (root : String) (fs : FS) (filename : String) : ReadResult :=
  if FS.pathExists fs
      (if isAbsolutePath filename then filename else joinPath root filename)
    = false then
    ReadResult.err ("File " ++ filename ++ " not found.")
  else
    match FS.lookup fs
        (if isAbsolutePath filename then filename else joinPath root filename) with
    | some (FSNode.file c) => ReadResult.content c
    | _ => ReadResult.err "EISDIR: illegal operation on a directory, read"

/-- `writeFileTool.execute(\x7b filepath, content \x7d)`: resolve against
the project root when relative, create the parent directory chain when it
does not exist, then write (overwriting any existing file;
`writeFileSync` throws when the target is a directory or the parent is a
regular file). -/
def writeFileExec (root : String) (fs : FS) (filepath content : String) :
    WriteResult × FS :=
  writeFileAt fs (if isAbsolutePath filepath then filepath else joinPath root filepath) content
where
  writeFileAt (fs : FS) (filePath content : String) : WriteResult × FS :=
    match (if FS.pathExists fs (dirname filePath) then some fs
           else mkdirRecursive fs (dirname filePath)) with
    | none => (WriteResult.err "ENOTDIR: mkdir failed", fs)
    | some fs1 =>
        match FS.lookup fs1 filePath, FS.lookup fs1 (dirname filePath) with
        | some FSNode.dir, _ => (WriteResult.err "EISDIR: illegal operation on a directory, write", fs1)
        | _, some (FSNode.file _) => (WriteResult.err "ENOTDIR: not a directory", fs1)
        | _, _ =>
            (WriteResult.success ("File written to " ++ filePath),
             FS.set fs1 filePath (FSNode.file content))

/-- `deleteFileTool.execute(\x7b filepath \x7d)`: resolve against the
project root when relative, refuse when the resolved path does not start
with the resolved root (the `startsWith` security check), then report a
missing file, refuse directories, and otherwise unlink. -/
def deleteFileExec (root : String) (fs : FS) (filepath : String) :
    DeleteResult × FS :=
  deleteAt (if isAbsolutePath filepath then filepath else joinPath root filepath)
where
  deleteAt (filePath : String) : DeleteResult × FS :=
    if strStartsWith (resolvePath filePath) (resolvePath root) = false then
      (DeleteResult.err ("Cannot delete file outside project root: " ++ filepath), fs)
    else if FS.pathExists fs filePath = false then
      (DeleteResult.err ("File " ++ filepath ++ " not found."), fs)
    else
      match FS.lookup fs filePath with
      | some FSNode.dir =>
          (DeleteResult.err (filepath ++ " is a directory. Use deleteDirectory tool instead."), fs)
      | _ =>
          (DeleteResult.success ("File " ++ filepath ++ " deleted successfully."),
           FS.remove fs filePath)

/-! ## The `/api/chat` endpoint (`router.post('/api/chat')`)

The inbound body's `messages` field is either absent, a non-array JSON
value, or an array of messages whose `content` is a string or some
structured value.  The hosted-model call `generateText` is an oracle
parameter; the handler returns its HTTP response together with the list
of generation requests it issued. -/

/-- A message `content` field: a JS string or any non-string value
(structured part lists and other shapes are all non-strings to the
handler, which only tests `typeof content === 'string'`). -/
inductive JSContent : Type
  | str (s : String)
  | nonString
deriving DecidableEq

structure ChatMessage : Type where
  role : String
  content : JSContent
deriving DecidableEq

inductive ToolChoice : Type
  | required
  | auto
deriving DecidableEq

structure ToolCall : Type where
  toolName : String
deriving DecidableEq

structure GenRequest : Type where
  messages : List ChatMessage
  toolChoice : ToolChoice
deriving DecidableEq

/-- Outcome of one `generateText` call: final text, the tool calls made
across the bounded steps, and `response.messages`. -/
structure GenResult : Type where
  text : String
  toolCalls : List ToolCall
  responseMessages : List ChatMessage

/-- The `messages` field of the request body.  JS checks
`!messages || !Array.isArray(messages)`: both an absent field and every
non-array value (truthy or falsy) fail it, and every array (including the
empty one, which is truthy) passes it. -/
inductive MsgField : Type
  | missing
  | nonArray (truthy : Bool)
  | arr (msgs : List ChatMessage)

inductive ChatResponse : Type
  | badRequest (error : String)
  | ok (messages : List ChatMessage) (text : String) (toolCalls : List ToolCall)
      (hasToolCalls : Bool)
deriving DecidableEq

/-- The keyword alternatives of the action-detection regex, verbatim
(including the duplicated 执行). -/
def actionKeywords : List String :=
  ["提交", "commit", "push", "执行", "执行", "做", "完成", "帮我", "请", "git",
   "add", "status"]

/-- `const userMessage = typeof lastMessage?.content === 'string' ?
lastMessage.content.toLowerCase() : ''` where
`lastMessage = messages[messages.length - 1]` — the last message of the
list, regardless of role (an empty list gives `undefined`, hence `''`). -/
def userMessageOf (messages : List ChatMessage) : String :=
  match messages.getLast? with
  | some m =>
      match m.content with
      | JSContent.str s => jsToLower s
      | JSContent.nonString => ""
  | none => ""

/-- `/(提交|commit|push|执行|执行|做|完成|帮我|请|git|add|status)/.test(...)`. -/
def requiresAction (userMessage : String) : Bool :=
  actionKeywords.any (fun k => strOccurs k userMessage)

/-- The synthesized completion notice
`✅ 已完成 $\x7btoolCalls.length\x7d 个工具调用。任务执行完成。`. -/
def defaultNotice (n : Nat) : String :=
  "✅ 已完成 " ++ toString n ++ " 个工具调用。任务执行完成。"

/-- The `/api/chat` handler body: validation, keyword detection, the
`generateText` call with `toolChoice` forced when the heuristic fires,
and the final-text fallback when tools ran but no text came back.
Returns the response and the trace of generation requests issued. -/
def chatHandler (gen : GenRequest → GenResult) (body : MsgField) :
    ChatResponse × List GenRequest :=
  match body with
  | MsgField.arr messages =>
      handleValid messages
  | _ => (ChatResponse.badRequest "Messages array is required", [])
where
  handleValid (messages : List ChatMessage) : ChatResponse × List GenRequest :=
    respond messages
      (gen ⟨messages,
            if requiresAction (userMessageOf messages) then ToolChoice.required
            else ToolChoice.auto⟩)
  respond (messages : List ChatMessage) (res : GenResult) :
      ChatResponse × List GenRequest :=
    (ChatResponse.ok res.responseMessages
      (finalOrText (finalTextOf res) res.text)
      res.toolCalls
      (!res.toolCalls.isEmpty),
     [⟨messages,
       if requiresAction (userMessageOf messages) then ToolChoice.required
       else ToolChoice.auto⟩])
  finalTextOf (res : GenResult) : String :=
    if !res.toolCalls.isEmpty && (String.mk (trimChars res.text.data)).isEmpty then
      defaultNotice res.toolCalls.length
    else res.text
  finalOrText (finalText text : String) : String :=
    if finalText.isEmpty then text else finalText

/-- The `text` field of a 200 response (the only place it is read). -/
def respTextOf : ChatResponse → String
  | ChatResponse.badRequest _ => ""
  | ChatResponse.ok _ t _ _ => t

/-- Whether a response is the 400 validation failure. -/
def isBadRequest : ChatResponse → Bool
  | ChatResponse.badRequest _ => true
  | ChatResponse.ok _ _ _ _ => false

/-- Modelled from the spec words of the claim: "the last user message of
the inbound conversation" — the content of the last message whose role is
`user`, lowercased like the handler lowercases, empty when there is none
or its content is not a string.  (The source itself has no such
computation; it reads the last message of any role.) -/
def specLastUserMessage (messages : List ChatMessage) : String :=
  match (messages.filter (fun m => m.role = "user")).getLast? with
  | some m =>
      match m.content with
      | JSContent.str s => jsToLower s
      | JSContent.nonString => ""
  | none => ""

/-! ## Lemmas: substring occurrence -/

theorem occursIn_cons_false {pat : List Char} {c : Char} {rest : List Char}
    (h : occursIn pat (c :: rest) = false) :
    pat.isPrefixOf (c :: rest) = false ∧ occursIn pat rest = false := by
  simp [occursIn] at h
  exact ⟨h.1, h.2⟩

/-! ## Lemmas: registries -/

theorem keysOf_cons {α : Type} (e : String × α) (rest : Registry α) :
    keysOf (e :: rest) = e.1 :: keysOf rest := rfl

theorem spreadMerge_nil {α : Type} (a : Registry α) : spreadMerge a [] = a := rfl

theorem spreadMerge_cons {α : Type} (a : Registry α) (e : String × α)
    (rest : Registry α) :
    spreadMerge a (e :: rest) = spreadMerge (setKey a e.1 e.2) rest := rfl

theorem alookup_setKey {α : Type} (m : Registry α) (k : String) (v : α) (k' : String) :
    alookup (setKey m k v) k' = if k = k' then some v else alookup m k' := by
  induction m with
  | nil =>
      by_cases h : k = k' <;> simp [setKey, alookup, h]
  | cons e rest ih =>
      by_cases he : e.1 = k
      · by_cases h : k = k' <;> simp [setKey, alookup, he, h]
      · by_cases h : k = k'
        · subst h
          simp [setKey, alookup, he, ih]
        · rw [show setKey (e :: rest) k v = e :: setKey rest k v by simp [setKey, he]]
          by_cases hek : e.1 = k' <;> simp [alookup, hek, h, ih]

theorem alookup_eq_none_of_not_mem {α : Type} {m : Registry α} {k : String}
    (h : k ∉ keysOf m) : alookup m k = none := by
  induction m with
  | nil => rfl
  | cons e rest ih =>
      rw [keysOf_cons] at h
      simp at h
      simp [alookup, Ne.symm h.1, ih h.2]

theorem keysOf_setKey {α : Type} (m : Registry α) (k : String) (v : α) :
    keysOf (setKey m k v) = if k ∈ keysOf m then keysOf m else keysOf m ++ [k] := by
  induction m with
  | nil => simp [setKey, keysOf]
  | cons e rest ih =>
      by_cases he : e.1 = k
      · simp [setKey, keysOf, he]
      · have hke : ¬ (k = e.1) := fun h => he h.symm
        by_cases hm : k ∈ keysOf rest
        · rw [show setKey (e :: rest) k v = e :: setKey rest k v by simp [setKey, he]]
          rw [keysOf_cons, keysOf_cons, ih]
          simp [hm, hke]
        · rw [show setKey (e :: rest) k v = e :: setKey rest k v by simp [setKey, he]]
          rw [keysOf_cons, keysOf_cons, ih]
          simp [hm, hke]

theorem nodupKeys_setKey {α : Type} {m : Registry α} (h : nodupKeys m)
    (k : String) (v : α) : nodupKeys (setKey m k v) := by
  unfold nodupKeys
  rw [keysOf_setKey]
  by_cases hm : k ∈ keysOf m
  · simpa [hm] using h
  · rw [if_neg hm]
    refine List.Nodup.append h (by simp) ?_
    intro a ha hak
    simp at hak
    exact hm (hak ▸ ha)

theorem nodupKeys_spreadMerge {α : Type} {a : Registry α} (b : Registry α)
    (h : nodupKeys a) : nodupKeys (spreadMerge a b) := by
  induction b generalizing a with
  | nil => simpa [spreadMerge] using h
  | cons e rest ih =>
      rw [spreadMerge_cons]
      exact ih (nodupKeys_setKey h e.1 e.2)

theorem alookup_spreadMerge {α : Type} (a : Registry α) (b : Registry α)
    (hb : nodupKeys b) (k : String) :
    alookup (spreadMerge a b) k =
      ((alookup b k).orElse fun _ => alookup a k) := by
  induction b generalizing a with
  | nil => simp [spreadMerge, alookup, Option.orElse]
  | cons e rest ih =>
      have hb' : e.1 ∉ keysOf rest ∧ nodupKeys rest := by
        have := hb
        unfold nodupKeys at this
        rw [keysOf_cons] at this
        exact List.nodup_cons.mp this
      rw [spreadMerge_cons, ih (setKey a e.1 e.2) hb'.2]
      by_cases h : e.1 = k
      · subst h
        rw [alookup_eq_none_of_not_mem hb'.1]
        simp [alookup, alookup_setKey, Option.orElse]
      · simp [alookup, alookup_setKey, h, Ne.symm h, Option.orElse]

/-! ## Lemmas: interpolation scanners -/

theorem replaceAllF_of_not_occurs {pat repl : List Char} :
    ∀ (s : List Char) (fuel : Nat), occursIn pat s = false →
      replaceAllF pat repl fuel s = s := by
  intro s
  induction s with
  | nil => intro fuel _; cases fuel <;> rfl
  | cons c rest ih =>
      intro fuel h
      obtain ⟨h1, h2⟩ := occursIn_cons_false h
      cases fuel with
      | zero => rfl
      | succ n => simp [replaceAllF, h1, ih n h2]

theorem replaceAll_of_not_occurs {pat repl s : List Char}
    (h : occursIn pat s = false) : replaceAll pat repl s = s :=
  replaceAllF_of_not_occurs s (s.length + 1) h

theorem envReplaceF_of_not_occurs {env : List Char → Option (List Char)} :
    ∀ (s : List Char) (fuel : Nat), occursIn envOpen s = false →
      envReplaceF env fuel s = s := by
  intro s
  induction s with
  | nil => intro fuel _; cases fuel <;> rfl
  | cons c rest ih =>
      intro fuel h
      obtain ⟨h1, h2⟩ := occursIn_cons_false h
      cases fuel with
      | zero => rfl
      | succ n => simp [envReplaceF, h1, ih n h2]

theorem envReplace_of_not_occurs {env : List Char → Option (List Char)}
    {s : List Char} (h : occursIn envOpen s = false) : envReplace env s = s :=
  envReplaceF_of_not_occurs s (s.length + 1) h

theorem takeWhile_append_of_all {p : Char → Bool} {xs : List Char}
    (ys : List Char) (h : ∀ c ∈ xs, p c = true) :
    (xs ++ ys).takeWhile p = xs ++ ys.takeWhile p := by
  induction xs with
  | nil => simp
  | cons x rest ih =>
      have hx : p x = true := h x (by simp)
      simp [List.takeWhile, hx, ih fun c hc => h c (by simp [hc])]

theorem dropWhile_append_of_all {p : Char → Bool} {xs : List Char}
    (ys : List Char) (h : ∀ c ∈ xs, p c = true) :
    (xs ++ ys).dropWhile p = ys.dropWhile p := by
  induction xs with
  | nil => simp
  | cons x rest ih =>
      have hx : p x = true := h x (by simp)
      simp [List.dropWhile, hx, ih fun c hc => h c (by simp [hc])]

theorem envReplaceF_nil (env : List Char → Option (List Char)) (n : Nat) :
    envReplaceF env n [] = [] := by
  cases n <;> rfl

theorem envReplaceF_token (env : List Char → Option (List Char))
    (fuel : Nat) (name tail : List Char) (hne : name ≠ [])
    (hnc : ∀ c ∈ name, c ≠ '\x7d') :
    envReplaceF env (fuel + 1) (envOpen ++ name ++ '\x7d' :: tail) =
      ((env name).getD []) ++ envReplaceF env fuel tail := by
  obtain ⟨n0, ns, rfl⟩ : ∃ n0 ns, name = n0 :: ns := by
    cases name with
    | nil => exact absurd rfl hne
    | cons n0 ns => exact ⟨n0, ns, rfl⟩
  have hall : ∀ c ∈ n0 :: ns, (fun ch => decide (ch ≠ '\x7d')) c = true := by
    intro c hc
    exact decide_eq_true (hnc c hc)
  have hpre : envOpen.isPrefixOf ('$' :: ("\x7benv:".data ++ ((n0 :: ns) ++ '\x7d' :: tail))) = true := by
    rw [List.isPrefixOf_iff_prefix]
    show envOpen <+: envOpen ++ ((n0 :: ns) ++ '\x7d' :: tail)
    exact List.prefix_append _ _
  have hdrop : ('$' :: ("\x7benv:".data ++ ((n0 :: ns) ++ '\x7d' :: tail))).drop envOpen.length
      = (n0 :: ns) ++ '\x7d' :: tail := by
    show (envOpen ++ ((n0 :: ns) ++ '\x7d' :: tail)).drop envOpen.length = _
    exact List.drop_left envOpen ((n0 :: ns) ++ '\x7d' :: tail)
  show envReplaceF env (fuel + 1) ('$' :: ("\x7benv:".data ++ ((n0 :: ns) ++ '\x7d' :: tail))) = _
  rw [envReplaceF, if_pos hpre, hdrop,
    takeWhile_append_of_all ('\x7d' :: tail) hall,
    dropWhile_append_of_all ('\x7d' :: tail) hall]
  simp [List.takeWhile, List.dropWhile]

theorem replaceAll_nil (pat repl : List Char) : replaceAll pat repl [] = [] := rfl

/-- An `$\x7benv:NAME\x7d` token whose variable is unset interpolates to the
empty string. -/
theorem interpolateConfig_unset_env (E : InterpEnv) (ws : List Char)
    (name : List Char) (hne : name ≠ []) (hnc : ∀ c ∈ name, c ≠ '\x7d')
    (hun : E.env name = none) :
    interpolateConfig E ws (envOpen ++ name ++ ['\x7d']) = [] := by
  unfold interpolateConfig
  have henv : envReplace E.env (envOpen ++ name ++ ['\x7d']) = [] := by
    unfold envReplace
    rw [show (envOpen ++ name ++ ['\x7d']).length + 1
        = (envOpen ++ name ++ ['\x7d']).length + 0 + 1 by simp]
    rw [envReplaceF_token E.env _ name [] hne hnc, hun]
    simp [envReplaceF_nil]
  rw [henv]
  simp [replaceAll_nil]

theorem interpolateConfig_of_noToken (E : InterpEnv) (ws : List Char)
    {s : List Char} (h : noToken s = true) :
    interpolateConfig E ws s = s := by
  have hall := h
  unfold noToken tokenTriggers at hall
  simp [List.all_cons] at hall
  obtain ⟨h1, h2, h3, h4, h5, h6⟩ := hall
  unfold interpolateConfig
  rw [envReplace_of_not_occurs h1, replaceAll_of_not_occurs h2,
    replaceAll_of_not_occurs h3, replaceAll_of_not_occurs h4,
    replaceAll_of_not_occurs h5, replaceAll_of_not_occurs h6]

/-! ## Lemmas: skill extraction -/

theorem tryFence_eq_none {s : List Char}
    (h : backtick3.isPrefixOf s = false) : tryFence s = none := by
  simp [tryFence, h]

theorem extractLoopF_of_not_occurs :
    ∀ (fuel : Nat) (s : List Char) (idx : Nat),
      occursIn backtick3 s = false → extractLoopF fuel s idx = [] := by
  intro fuel
  induction fuel with
  | zero => intro s idx _; rfl
  | succ n ih =>
      intro s idx h
      cases s with
      | nil => rfl
      | cons c rest =>
          obtain ⟨h1, h2⟩ := occursIn_cons_false h
          rw [extractLoopF, tryFence_eq_none h1]
          exact ih rest idx h2

/-! ## Lemmas: handler -/

/-- The synthesized completion notice is never the empty string. -/
theorem defaultNotice_ne_empty (n : Nat) : defaultNotice n ≠ "" := by
  intro h
  have h2 := congrArg String.data h
  rw [defaultNotice, String.data_append, String.data_append] at h2
  simp at h2

/-! ## Claim theorems -/

/-- C1: the claim states that every filepath whose resolved path lies
outside the project root makes the delete-file tool return an error with
no filesystem mutation.  The code instead guards with a raw
`startsWith` on the resolved strings, so a sibling directory whose name
extends the root's name passes the check: with project root
`/app/project`, deleting `/app/project-evil/secret.txt` — a resolved
path outside the root — succeeds and unlinks the file. -/
theorem deleteFile_sibling_escape :
    insideRoot (resolvePath "/app/project")
        (resolvePath "/app/project-evil/secret.txt") = false
    ∧ deleteFileExec "/app/project"
        [("/app/project-evil/secret.txt", FSNode.file "s")]
        "/app/project-evil/secret.txt"
      = (DeleteResult.success "File /app/project-evil/secret.txt deleted successfully.",
         []) := by
  constructor
  · rfl
  · rfl

/-- C2: `getTools()` merges base tools, MCP tools and skill tools in that
precedence order: the merged registry has unique names, and each name
maps to the skill definition if present, else the MCP definition, else
the base definition. -/
theorem getTools_merge (mcpTools skillTools : Registry ToolImpl)
    (hm : nodupKeys mcpTools) (hs : nodupKeys skillTools) :
    nodupKeys (getTools mcpTools skillTools)
    ∧ ∀ n, alookup (getTools mcpTools skillTools) n =
        ((alookup skillTools n).orElse fun _ =>
          (alookup mcpTools n).orElse fun _ => alookup baseTools n) := by
  constructor
  · exact nodupKeys_spreadMerge skillTools
      (nodupKeys_spreadMerge mcpTools (by decide))
  · intro n
    simp only [getTools, alookup_spreadMerge _ _ hs, alookup_spreadMerge _ _ hm]

/-- C2 witness: with an MCP tool and a skill tool both named `calculate`,
the merged registry still has unique names and maps `calculate` to the
skill-derived definition, the latest source. -/
theorem getTools_merge_witness :
    nodupKeys (getTools
        [("git-mcp_status", ToolImpl.mcp "git-mcp" "status"),
         ("calculate", ToolImpl.mcp "m" "calc")]
        [("calculate", ToolImpl.skill "x")])
    ∧ alookup (getTools
        [("git-mcp_status", ToolImpl.mcp "git-mcp" "status"),
         ("calculate", ToolImpl.mcp "m" "calc")]
        [("calculate", ToolImpl.skill "x")]) "calculate"
      = some (ToolImpl.skill "x") := by
  have h := getTools_merge
    [("git-mcp_status", ToolImpl.mcp "git-mcp" "status"),
     ("calculate", ToolImpl.mcp "m" "calc")]
    [("calculate", ToolImpl.skill "x")]
    (by decide) (by decide)
  refine ⟨h.1, ?_⟩
  rw [h.2 "calculate"]
  rfl

/-- C3 counterexample: the claim ties forced tool use to the last *user*
message, but the handler reads the last message of any role.  With
conversation `[user: "hello", assistant: "commit"]` the last user message
matches no action keyword, yet the issued generation request forces tool
use. -/
theorem requiresAction_last_user_counterexample :
    (chatHandler (fun _ => ⟨"", [], []⟩)
        (MsgField.arr [⟨"user", JSContent.str "hello"⟩,
                       ⟨"assistant", JSContent.str "commit"⟩])).2
      = [⟨[⟨"user", JSContent.str "hello"⟩,
           ⟨"assistant", JSContent.str "commit"⟩], ToolChoice.required⟩]
    ∧ requiresAction (specLastUserMessage
        [⟨"user", JSContent.str "hello"⟩,
         ⟨"assistant", JSContent.str "commit"⟩]) = false := by
  constructor
  · rfl
  · rfl

/-- C3 amended: the generation request is issued with tool choice
`required` exactly when the keyword pattern matches the lowercased string
content of the last message of the inbound list (whatever its role; a
missing last message or non-string content never matches), and with
`auto` otherwise. -/
theorem toolChoice_matches_last_message (gen : GenRequest → GenResult)
    (msgs : List ChatMessage) :
    ((chatHandler gen (MsgField.arr msgs)).2 = [⟨msgs, ToolChoice.required⟩]
      ↔ requiresAction (userMessageOf msgs) = true)
    ∧ ((chatHandler gen (MsgField.arr msgs)).2 = [⟨msgs, ToolChoice.auto⟩]
      ↔ requiresAction (userMessageOf msgs) = false) := by
  by_cases h : requiresAction (userMessageOf msgs) = true
  · simp [chatHandler, chatHandler.handleValid, chatHandler.respond, h]
  · simp only [Bool.not_eq_true] at h
    simp [chatHandler, chatHandler.handleValid, chatHandler.respond, h]

/-- C4: if generation produced tool calls but blank (empty or
whitespace-only) final text, the response's `text` field is the non-empty
synthesized completion notice; if generation produced non-blank text,
that text is returned unchanged. -/
theorem chat_text_fallback (res : GenResult) (msgs : List ChatMessage) :
    (res.toolCalls ≠ [] → trimChars res.text.data = [] →
        respTextOf (chatHandler (fun _ => res) (MsgField.arr msgs)).1
          = defaultNotice res.toolCalls.length
        ∧ respTextOf (chatHandler (fun _ => res) (MsgField.arr msgs)).1 ≠ "")
    ∧ (trimChars res.text.data ≠ [] →
        respTextOf (chatHandler (fun _ => res) (MsgField.arr msgs)).1
          = res.text) := by
  constructor
  · intro htc htrim
    have hne : res.toolCalls.isEmpty = false := by
      cases hres : res.toolCalls with
      | nil => exact absurd hres htc
      | cons a l => rfl
    have hblank : (String.mk (trimChars res.text.data)).isEmpty = true := by
      rw [htrim]; rfl
    have hfinal : chatHandler.finalTextOf res
        = defaultNotice res.toolCalls.length := by
      rw [chatHandler.finalTextOf, if_pos (by rw [hne, hblank]; rfl)]
    have hmain : respTextOf (chatHandler (fun _ => res) (MsgField.arr msgs)).1
        = defaultNotice res.toolCalls.length := by
      show respTextOf (chatHandler.respond msgs res).1 = _
      rw [chatHandler.respond]
      show chatHandler.finalOrText (chatHandler.finalTextOf res) res.text = _
      have hniE : (defaultNotice res.toolCalls.length).isEmpty = false := by
        rw [Bool.eq_false_iff]
        intro hemp
        exact defaultNotice_ne_empty res.toolCalls.length
          ((String.isEmpty_iff _).mp hemp)
      rw [hfinal, chatHandler.finalOrText, if_neg (by rw [hniE]; simp)]
    exact ⟨hmain, by rw [hmain]; exact defaultNotice_ne_empty res.toolCalls.length⟩
  · intro htrim
    have hblank : (String.mk (trimChars res.text.data)).isEmpty = false := by
      cases ht : trimChars res.text.data with
      | nil => exact absurd ht htrim
      | cons a l =>
          rw [Bool.eq_false_iff]
          intro hemp
          have hmk := (String.isEmpty_iff (String.mk (a :: l))).mp hemp
          have := congrArg String.data hmk
          simp at this
    have hfinal : chatHandler.finalTextOf res = res.text := by
      rw [chatHandler.finalTextOf, if_neg (by rw [hblank]; simp)]
    show respTextOf (chatHandler.respond msgs res).1 = _
    rw [chatHandler.respond]
    show chatHandler.finalOrText (chatHandler.finalTextOf res) res.text = _
    rw [hfinal, chatHandler.finalOrText]
    exact ite_self res.text

/-- C4 witness: one tool call with empty text yields the notice for one
call; no tool calls with text `done` yields `done` unchanged. -/
theorem chat_text_fallback_witness :
    respTextOf (chatHandler (fun _ => ⟨"", [⟨"calculate"⟩], []⟩)
        (MsgField.arr [])).1 = defaultNotice 1
    ∧ respTextOf (chatHandler (fun _ => ⟨"", [⟨"calculate"⟩], []⟩)
        (MsgField.arr [])).1 ≠ ""
    ∧ respTextOf (chatHandler (fun _ => ⟨"done", [], []⟩)
        (MsgField.arr [])).1 = "done" := by
  have h1 := chat_text_fallback ⟨"", [⟨"calculate"⟩], []⟩ []
  have h2 := chat_text_fallback ⟨"done", [], []⟩ []
  exact ⟨(h1.1 (by simp) rfl).1, (h1.1 (by simp) rfl).2, h2.2 (by decide)⟩

/-- C5: a missing or non-array `messages` field yields the 400 response
`\x7b error: "Messages array is required" \x7d` and no generation request
is issued, whatever the generation oracle would answer. -/
theorem chat_validation (gen : GenRequest → GenResult) (t : Bool) :
    chatHandler gen MsgField.missing
      = (ChatResponse.badRequest "Messages array is required", [])
    ∧ chatHandler gen (MsgField.nonArray t)
      = (ChatResponse.badRequest "Messages array is required", []) :=
  ⟨rfl, rfl⟩

/-- C6: configuration interpolation returns any string without a
recognized substitution token unchanged (hence interpolating twice equals
interpolating once on such strings); an `$\x7benv:NAME\x7d` reference to
an unset variable becomes the empty string rather than an error; and a
string combining every token kind resolves fully, e.g. the
`$\x7buserHome\x7d/x` prefix becomes `/home/u/x`. -/
theorem interpolateConfig_spec :
    (∀ (E : InterpEnv) (ws s : List Char), noToken s = true →
        interpolateConfig E ws s = s
        ∧ interpolateConfig E ws (interpolateConfig E ws s)
            = interpolateConfig E ws s)
    ∧ (∀ (E : InterpEnv) (ws name : List Char), name ≠ [] →
        (∀ c ∈ name, c ≠ '\x7d') → E.env name = none →
        interpolateConfig E ws (envOpen ++ name ++ ['\x7d']) = [])
    ∧ interpolateConfig exEnv "/proj/app".data
        "$\x7buserHome\x7d/x-$\x7benv:FOO\x7d-$\x7benv:NOPE\x7d-$\x7bworkspaceFolderBasename\x7d$\x7bpathSeparator\x7d$\x7bworkspaceFolder\x7d$\x7b/\x7d".data
      = "/home/u/x-foo--app//proj/app/".data := by
  refine ⟨fun E ws s h => ?_, fun E ws name h1 h2 h3 => ?_, ?_⟩
  · have heq := interpolateConfig_of_noToken E ws h
    exact ⟨heq, by rw [heq, heq]⟩
  · exact interpolateConfig_unset_env E ws name h1 h2 h3
  · rfl

/-- C6 witness: a token-free string interpolates to itself (once and
twice), and an `$\x7benv:NOPE\x7d` reference to the unset variable `NOPE`
interpolates to the empty string. -/
theorem interpolateConfig_spec_witness :
    interpolateConfig exEnv "/proj/app".data "plain value".data
      = "plain value".data
    ∧ interpolateConfig exEnv "/proj/app".data
        (interpolateConfig exEnv "/proj/app".data "plain value".data)
      = interpolateConfig exEnv "/proj/app".data "plain value".data
    ∧ interpolateConfig exEnv "/proj/app".data (envOpen ++ "NOPE".data ++ ['\x7d'])
      = [] := by
  have h1 := interpolateConfig_spec.1 exEnv "/proj/app".data "plain value".data
    (by decide)
  have h2 := interpolateConfig_spec.2.1 exEnv "/proj/app".data "NOPE".data
    (by decide) (by decide) (by decide)
  exact ⟨h1.1, h1.2, h2⟩

/-- C7: a loaded skill has executable scripts exactly when some extracted
code block's language tag is in the allow-list or is empty; a descriptor
containing no fence delimiter at all yields an empty code-block list and
`hasExecutableScripts = false`. -/
theorem skill_executable_scripts (content : String) :
    (hasExecutableScripts (extractCodeBlocks content) = true
      ↔ ∃ b ∈ extractCodeBlocks content,
          (b.language ∈ executableLanguages ∨ b.language = ""))
    ∧ (occursIn backtick3 content.data = false →
        extractCodeBlocks content = []
        ∧ hasExecutableScripts (extractCodeBlocks content) = false) := by
  constructor
  · rw [hasExecutableScripts, List.any_eq_true]
    constructor
    · rintro ⟨b, hb, hexec⟩
      refine ⟨b, hb, ?_⟩
      rw [isExecutableBlock, Bool.or_eq_true] at hexec
      rcases hexec with h | h
      · exact Or.inl (List.elem_iff.mp h)
      · exact Or.inr (by simpa using h)
    · rintro ⟨b, hb, hexec⟩
      refine ⟨b, hb, ?_⟩
      rw [isExecutableBlock, Bool.or_eq_true]
      rcases hexec with h | h
      · exact Or.inl (List.elem_iff.mpr h)
      · exact Or.inr (by simp [h])
  · intro hocc
    have he : extractCodeBlocks content = [] :=
      extractLoopF_of_not_occurs _ content.data 0 hocc
    exact ⟨he, by rw [he]; rfl⟩

/-- C7 witness: a descriptor with no fenced code blocks reports an empty
block list and no executable scripts. -/
theorem skill_executable_scripts_witness :
    extractCodeBlocks "A plain skill descriptor without code" = []
    ∧ hasExecutableScripts
        (extractCodeBlocks "A plain skill descriptor without code") = false :=
  (skill_executable_scripts "A plain skill descriptor without code").2 (by decide)

/-- C8: the read-file and write-file tools apply no project-root
containment check.  For any absolute path — in particular one outside the
resolved project root — reading returns the file content whenever the
file exists, writing succeeds (creating the missing parent-directory
chain when needed), while the delete-file tool refuses the same path
whenever its `startsWith` guard fails. -/
theorem readWrite_no_containment (root : String) (fs : FS) (p c w : String)
    (habs : isAbsolutePath p = true)
    (_hout : insideRoot (resolvePath root) (resolvePath p) = false) :
    (FS.lookup fs p = some (FSNode.file c) →
        readFileExec root fs p = ReadResult.content c)
    ∧ (FS.lookup fs p = some (FSNode.file c) →
        FS.lookup fs (dirname p) = some FSNode.dir →
        writeFileExec root fs p w
          = (WriteResult.success ("File written to " ++ p),
             FS.set fs p (FSNode.file w)))
    ∧ (∀ fs1, FS.pathExists fs (dirname p) = false →
        mkdirRecursive fs (dirname p) = some fs1 →
        FS.lookup fs1 p = none →
        FS.lookup fs1 (dirname p) = some FSNode.dir →
        writeFileExec root fs p w
          = (WriteResult.success ("File written to " ++ p),
             FS.set fs1 p (FSNode.file w)))
    ∧ (strStartsWith (resolvePath p) (resolvePath root) = false →
        deleteFileExec root fs p
          = (DeleteResult.err ("Cannot delete file outside project root: " ++ p),
             fs)) := by
  refine ⟨fun hfile => ?_, fun hfile hdir => ?_, fun fs1 hnodir hmk hnew hdir1 => ?_,
    fun hsw => ?_⟩
  · rw [readFileExec, if_neg (by simp [habs, FS.pathExists, hfile])]
    simp [habs, hfile]
  · rw [writeFileExec, if_pos habs]
    rw [writeFileExec.writeFileAt]
    rw [if_pos (by simp [FS.pathExists, hdir])]
    simp [hfile, hdir]
  · rw [writeFileExec, if_pos habs]
    rw [writeFileExec.writeFileAt]
    rw [if_neg (by simp [hnodir])]
    simp [hmk, hnew, hdir1]
  · rw [deleteFileExec, if_pos habs, deleteFileExec.deleteAt, if_pos (by rw [hsw])]

/-- C8 witness: with project root `/app/project`, the absolute path
`/etc/secret.txt` (outside the root) is readable and writable, a write
below `/outside` creates the missing directory, and the delete tool
refuses `/etc/secret.txt`. -/
theorem readWrite_no_containment_witness :
    readFileExec "/app/project" [("/etc", FSNode.dir), ("/etc/secret.txt", FSNode.file "c")]
        "/etc/secret.txt" = ReadResult.content "c"
    ∧ writeFileExec "/app/project" [("/etc", FSNode.dir), ("/etc/secret.txt", FSNode.file "c")]
        "/etc/secret.txt" "w"
      = (WriteResult.success "File written to /etc/secret.txt",
         [("/etc", FSNode.dir), ("/etc/secret.txt", FSNode.file "w")])
    ∧ writeFileExec "/app/project" [("/outside", FSNode.dir)]
        "/outside/newdir/f.txt" "w"
      = (WriteResult.success "File written to /outside/newdir/f.txt",
         [("/outside", FSNode.dir), ("/outside/newdir", FSNode.dir),
          ("/outside/newdir/f.txt", FSNode.file "w")])
    ∧ deleteFileExec "/app/project" [("/etc", FSNode.dir), ("/etc/secret.txt", FSNode.file "c")]
        "/etc/secret.txt"
      = (DeleteResult.err "Cannot delete file outside project root: /etc/secret.txt",
         [("/etc", FSNode.dir), ("/etc/secret.txt", FSNode.file "c")]) := by
  have hA := readWrite_no_containment "/app/project"
    [("/etc", FSNode.dir), ("/etc/secret.txt", FSNode.file "c")]
    "/etc/secret.txt" "c" "w" (by decide) (by decide)
  have hB := readWrite_no_containment "/app/project"
    [("/outside", FSNode.dir)] "/outside/newdir/f.txt" "c" "w"
    (by decide) (by decide)
  refine ⟨?_, ?_, ?_, ?_⟩
  · exact hA.1 (by decide)
  · have := hA.2.1 (by decide) (by decide)
    rw [this]
    rfl
  · have := hB.2.2.1
      [("/outside", FSNode.dir), ("/outside/newdir", FSNode.dir)]
      (by decide) (by decide) (by decide) (by decide)
    rw [this]
    rfl
  · exact hA.2.2.2 (by decide)

/-- C9: when a provider declares both an inline `env` map and an
`envFile`, the merged overlay prefers the inline value on every key
present in both, and keeps every key that appears only in the env
file. -/
theorem providerEnv_merge (inlineEnv envFileVars : Registry String)
    (hinl : nodupKeys inlineEnv) (k : String) :
    alookup (mergeProviderEnv inlineEnv envFileVars) k
      = ((alookup inlineEnv k).orElse fun _ => alookup envFileVars k)
    ∧ (alookup inlineEnv k = none →
        alookup (mergeProviderEnv inlineEnv envFileVars) k
          = alookup envFileVars k) := by
  have h := alookup_spreadMerge envFileVars inlineEnv hinl k
  refine ⟨h, fun hnone => ?_⟩
  rw [mergeProviderEnv, h, hnone]
  rfl

/-- C9 witness: with inline `\x7b A ↦ inline \x7d` and env-file
`\x7b A ↦ file, C ↦ f3 \x7d`, key `A` resolves to the inline value and
key `C` is kept from the env file. -/
theorem providerEnv_merge_witness :
    alookup (mergeProviderEnv [("A", "inline")] [("A", "file"), ("C", "f3")]) "A"
      = some "inline"
    ∧ alookup (mergeProviderEnv [("A", "inline")] [("A", "file"), ("C", "f3")]) "C"
      = some "f3" := by
  have hA := providerEnv_merge [("A", "inline")] [("A", "file"), ("C", "f3")]
    (by decide) "A"
  have hC := providerEnv_merge [("A", "inline")] [("A", "file"), ("C", "f3")]
    (by decide) "C"
  refine ⟨?_, ?_⟩
  · rw [hA.1]; rfl
  · rw [hC.2 (by rfl)]; rfl

/-- C10: an empty `messages` array passes validation: the handler does
not answer 400, it issues exactly one generation request, that request
carries tool choice `auto`, and the last-message lookup yields the empty
user text. -/
theorem chat_empty_messages (gen : GenRequest → GenResult) :
    userMessageOf [] = ""
    ∧ (chatHandler gen (MsgField.arr [])).2 = [⟨[], ToolChoice.auto⟩]
    ∧ isBadRequest (chatHandler gen (MsgField.arr [])).1 = false := by
  refine ⟨rfl, ?_, ?_⟩
  · simp [chatHandler, chatHandler.handleValid, chatHandler.respond,
      show requiresAction (userMessageOf []) = false from rfl]
  · simp [chatHandler, chatHandler.handleValid, chatHandler.respond, isBadRequest]

end AgentDemo
